import Mathlib

/-!
Verification development for the IBPS recruitment-listing scraper
(src/scrape_ibps.py): a shallow embedding of its heuristic extractor
`parse_recruitment_list` together with theorems about the extractor.

The embedding models:
* the Python string primitives the script relies on
  (str.strip, str.split, str.lower, substring / endswith tests);
* the three compiled regular expressions of the script
  (the date pattern, the location pattern and the recruitment keyword
  pattern), as backtracking matchers with Python `re` semantics
  (leftmost match, greedy quantifiers, left-preference alternation,
  ASCII word boundaries);
* the parsed HTML document as a tree of element and text nodes with the
  BeautifulSoup operations the script uses (find_all, get_text,
  parent, find_all_next / find_all_previous over document order);
* urllib.parse.urljoin, for the reference forms this program resolves
  (empty, scheme-full, protocol-relative, path-absolute and
  path-relative references without query or fragment);
* Python dict-comprehension deduplication (insertion-ordered keys,
  last value wins) and the final seen-set link deduplication.
-/

/-! ## Python string primitives -/

/-- The ASCII whitespace characters recognised both by Python's
str.strip / str.split and by the regex class \s. -/
def isPySpace (c : Char) : Bool :=
  c = ' ' || c = '\t' || c = '\n' || c = '\r' || c = Char.ofNat 11 || c = Char.ofNat 12

def isDigitA (c : Char) : Bool := 48 ≤ c.toNat && c.toNat ≤ 57

def isUpperA (c : Char) : Bool := 65 ≤ c.toNat && c.toNat ≤ 90

def isLowerA (c : Char) : Bool := 97 ≤ c.toNat && c.toNat ≤ 122

def isAlphaA (c : Char) : Bool := isUpperA c || isLowerA c

def isAlnumA (c : Char) : Bool := isAlphaA c || isDigitA c

/-- ASCII lower-casing, the effect of Python str.lower on the ASCII
inputs this program handles. -/
def lowerChar (c : Char) : Char :=
  if isUpperA c then Char.ofNat (c.toNat + 32) else c

def lowerL (cs : List Char) : List Char := cs.map lowerChar

/-- Python str.strip (ASCII whitespace both ends). -/
def pyStripL (cs : List Char) : List Char :=
  ((cs.dropWhile isPySpace).reverse.dropWhile isPySpace).reverse

def pyStrip (s : String) : String := String.mk (pyStripL s.data)

/-- Helper for pySplitL: accumulates the current (reversed) token. -/
def pySplitAux : List Char → List Char → List (List Char)
  | acc, [] => if acc.isEmpty then [] else [acc.reverse]
  | acc, c :: cs =>
      if isPySpace c then
        if acc.isEmpty then pySplitAux [] cs else acc.reverse :: pySplitAux [] cs
      else pySplitAux (c :: acc) cs

/-- Python str.split() with no separator: split on whitespace runs,
producing no empty tokens. -/
def pySplitL (cs : List Char) : List (List Char) := pySplitAux [] cs

/-- Python substring containment (the `in` operator on str). -/
def containsSub : List Char → List Char → Bool
  | hay, needle =>
    if needle.isPrefixOf hay then true
    else match hay with
      | [] => false
      | _ :: t => containsSub t needle

/-- Python str.endswith. -/
def endsWithSub (hay needle : List Char) : Bool := needle.isSuffixOf hay

/-- Join a list of strings with a separator (Python separator.join). -/
def joinSep (sep : String) : List String → String
  | [] => ""
  | [s] => s
  | s :: rest => s ++ sep ++ joinSep sep rest

/-! ## Regex matchers

Each of the script's three compiled patterns is embedded as a
backtracking matcher built from combinators that mirror Python `re`
semantics: a matcher is a continuation-passing function that is given
the character preceding the current position (for word boundaries) and
the remaining input, and returns the number of characters the rest of
the pattern consumes. Greedy counted classes try the longest
repetition first; alternations try branches left to right; search
tries start positions left to right and returns group(0) of the first
position that matches. -/

/-- A matcher continuation: previous character (none at the start of
the haystack), remaining input, and the consumed length on success. -/
def MCont : Type := Option Char → List Char → Option Nat

/-- The empty rest-pattern: consumes nothing, always succeeds. -/
def endM : MCont := fun _ _ => some 0

/-- Is an optional character an ASCII word character (regex \w)? -/
def isWordO : Option Char → Bool
  | none => false
  | some c => isAlnumA c || c = '_'

/-- Word boundary \b: succeeds without consuming when exactly one of
the neighbouring characters is a word character. -/
def wbM (k : MCont) : MCont := fun prev cs =>
  if isWordO prev != isWordO cs.head? then k prev cs else none

/-- Literal string item. -/
def litM (lit : List Char) (k : MCont) : MCont := fun prev cs =>
  if lit.isPrefixOf cs then
    (k (lit.getLast?.orElse (fun _ => prev)) (cs.drop lit.length)).map (lit.length + ·)
  else none

/-- Length of the maximal prefix whose characters satisfy p. -/
def countWhile (p : Char → Bool) : List Char → Nat
  | [] => 0
  | c :: cs => if p c then countWhile p cs + 1 else 0

/-- Try f at hi, hi-1, ..., lo (greedy backtracking order); none when
hi < lo or every attempt fails. -/
def tryDown (f : Nat → Option Nat) (lo : Nat) : Nat → Option Nat
  | 0 => if lo = 0 then f 0 else none
  | h + 1 =>
    if h + 1 < lo then none
    else match f (h + 1) with
      | some r => some r
      | none => tryDown f lo h

/-- The character that precedes the position reached after consuming j
characters of cs (prev when j = 0). -/
def prevAfter (prev : Option Char) (cs : List Char) (j : Nat) : Option Char :=
  if j = 0 then prev else ((cs.drop (j - 1)).head?).orElse (fun _ => prev)

/-- Greedy counted character class `[p]{mn,mx}` (mx = none for
unbounded +/*): consumes between mn and mx matching characters,
preferring the longest count, backtracking into k. -/
def clsM (p : Char → Bool) (mn : Nat) (mx : Option Nat) (k : MCont) : MCont :=
  fun prev cs =>
    let cap0 := countWhile p cs
    let cap := match mx with
      | some m => min m cap0
      | none => cap0
    if cap < mn then none
    else tryDown (fun j => (k (prevAfter prev cs j) (cs.drop j)).map (j + ·)) mn cap

/-- Non-capturing literal alternation `(?:w1|w2|...)`: tries the words
in order, backtracking into k. -/
def altWordsM (words : List (List Char)) (k : MCont) : MCont := fun prev cs =>
  match words with
  | [] => none
  | w :: ws =>
    match litM w k prev cs with
    | some r => some r
    | none => altWordsM ws k prev cs

/-- Run top-level alternatives in order at a fixed position. -/
def runAlts (alts : List MCont) (prev : Option Char) (cs : List Char) : Option Nat :=
  match alts with
  | [] => none
  | a :: rest =>
    match a prev cs with
    | some n => some n
    | none => runAlts rest prev cs

/-- re.search: try each start position left to right; at the first
position where some alternative matches, return group(0). -/
def reSearchL (alts : List MCont) : Option Char → List Char → Option (List Char)
  | prev, cs =>
    match runAlts alts prev cs with
    | some n => some (cs.take n)
    | none =>
      match cs with
      | [] => none
      | c :: t => reSearchL alts (some c) t

def reSearch (alts : List MCont) (s : String) : Option String :=
  (reSearchL alts none s.data).map String.mk

/-! ## The script's three patterns -/

/-- Separator class `[ \-\/]` of the date pattern. -/
def isDateSep (c : Char) : Bool := c = ' ' || c = '-' || c = '/'

/-- First date alternative:
\b(\d{1,2}[ \-\/][A-Za-z0-9]{1,3}[ \-\/]\d{2,4})\b  (line 76). -/
def dateAlt1 : MCont :=
  wbM (clsM isDigitA 1 (some 2) (clsM isDateSep 1 (some 1) (clsM isAlnumA 1 (some 3)
    (clsM isDateSep 1 (some 1) (clsM isDigitA 2 (some 4) (wbM endM))))))

/-- Second date alternative:
\b([A-Za-z]{3,9}\s+\d{1,2},\s*\d{4})\b  (line 76). -/
def dateAlt2 : MCont :=
  wbM (clsM isAlphaA 3 (some 9) (clsM isPySpace 1 none (clsM isDigitA 1 (some 2)
    (litM [','] (clsM isPySpace 0 none (clsM isDigitA 4 (some 4) (wbM endM)))))))

/-- re.search of the date pattern of line 76; group(0) of the match. -/
def dateSearch (s : String) : Option String := reSearch [dateAlt1, dateAlt2] s

/-- Class `[:\s]*` of the location pattern. -/
def isColonSpace (c : Char) : Bool := c = ':' || isPySpace c

/-- Class `[A-Za-z,\s\-]+` of the location pattern. -/
def isLocChar (c : Char) : Bool := isAlphaA c || c = ',' || isPySpace c || c = '-'

/-- Class `[A-Za-z\s]+` of the location pattern. -/
def isAlphaSpace (c : Char) : Bool := isAlphaA c || isPySpace c

/-- First location alternative: (Location[:\s]*[A-Za-z,\s\-]+)  (line 84). -/
def locAlt1 : MCont :=
  litM "Location".data (clsM isColonSpace 0 none (clsM isLocChar 1 none endM))

/-- Second location alternative:
([A-Za-z\s]+(?:District|State|Region|City|Town))  (line 84). -/
def locAlt2 : MCont :=
  clsM isAlphaSpace 1 none
    (altWordsM ["District".data, "State".data, "Region".data, "City".data, "Town".data] endM)

/-- re.search of the location pattern of line 84; group(0). -/
def locSearch (s : String) : Option String := reSearch [locAlt1, locAlt2] s

/-- The nine literals of keyword_pattern (line 63), lower-cased. -/
def keywordLits : List (List Char) :=
  ["recruit".data, "apply".data, "notification".data, "advertisement".data,
   "vacancy".data, "register".data, "click here".data, "recruitment".data, "notice".data]

/-- Boolean form of keyword_pattern.search (line 63): the alternation
of plain literals under re.I matches somewhere iff some literal is a
case-insensitive substring. -/
def kwSearch (s : String) : Bool :=
  keywordLits.any (fun lit => containsSub (lowerL s.data) lit)

/-! ## The document tree

A parsed document is a tree of element and text nodes, as produced by
BeautifulSoup(html, "html.parser") (which wraps the markup in no extra
html/body elements). The BeautifulSoup object itself is the root; its
element/string chain (descendants, next/previous document order) does
not include the root. Nodes are addressed by paths (child-index lists)
from the root, which gives distinct tree positions distinct
identities, as distinct Python objects have. -/

mutual
inductive HNode where
  | text (s : String)
  | elem (tag : String) (attrs : List (String × String)) (children : HNodes)
inductive HNodes where
  | nil
  | cons (head : HNode) (tail : HNodes)
end

abbrev HPath := List Nat

def HNode.isTag : HNode → Bool
  | .text _ => false
  | .elem _ _ _ => true

def HNode.tagName : HNode → String
  | .text _ => ""
  | .elem t _ _ => t

/-- Attribute access (tag.get(key) / tag[key]); none for an absent
attribute and for text nodes. -/
def HNode.getAttr : HNode → String → Option String
  | .text _, _ => none
  | .elem _ attrs _, key => (attrs.find? (fun q => q.1 == key)).map Prod.snd

mutual
/-- All NavigableStrings below a node, in document order
(the string stream of get_text). -/
def allStrings : HNode → List String
  | .text s => [s]
  | .elem _ _ cs => allStringsL cs
def allStringsL : HNodes → List String
  | .nil => []
  | .cons c cs => allStrings c ++ allStringsL cs
end

/-- BeautifulSoup get_text(separator, strip=True): each descendant
string is stripped, strings that strip to empty are dropped, and the
remainder are joined with the separator. -/
def getTextSep (sep : String) (n : HNode) : String :=
  joinSep sep (((allStrings n).map pyStrip).filter (fun s => !s.isEmpty))

mutual
/-- Paths of all descendants of a node (the node itself excluded), in
document order: each child is followed by its own descendants. -/
def descPaths : HNode → List HPath
  | .text _ => []
  | .elem _ _ cs => descPathsL 0 cs
def descPathsL : Nat → HNodes → List HPath
  | _, .nil => []
  | i, .cons c cs => ([i] :: (descPaths c).map (fun p => i :: p)) ++ descPathsL (i + 1) cs
end

def childAt : HNodes → Nat → Option HNode
  | .nil, _ => none
  | .cons c _, 0 => some c
  | .cons _ cs, i + 1 => childAt cs i

def nodeAt (root : HNode) : HPath → Option HNode
  | [] => some root
  | i :: p =>
    match root with
    | .text _ => none
    | .elem _ _ cs =>
      match childAt cs i with
      | some c => nodeAt c p
      | none => none

/-- Total node lookup; paths handed around by the pipeline always
resolve, so the default is never observed along them. -/
def getAt (root : HNode) (p : HPath) : HNode := (nodeAt root p).getD (.text "")

/-- The document-order sequence of all node paths (root excluded),
i.e. the soup's descendants / the next_element chain. -/
def allPaths (root : HNode) : List HPath := descPaths root

/-- tag.find_all(pred) / soup.find_all(pred): the descendants of the
scope node, in document order, whose node satisfies the predicate
(match functions and name filters in BeautifulSoup match element nodes
only; the predicates used below enforce that themselves). -/
def findAllIn (root : HNode) (scope : HPath) (pred : HNode → Bool) : List HPath :=
  ((descPaths (getAt root scope)).map (fun p => scope ++ p)).filter
    (fun p => pred (getAt root p))

/-- Paths strictly after p in document order (the next_elements chain:
p's own descendants first, then everything parsed after it). -/
def pathsAfter (root : HNode) (p : HPath) : List HPath :=
  ((allPaths root).dropWhile (fun q => q != p)).drop 1

/-- Paths strictly before p, nearest first (the previous_elements
chain, reverse document order). -/
def pathsBefore (root : HNode) (p : HPath) : List HPath :=
  ((allPaths root).takeWhile (fun q => q != p)).reverse

/-- tag.find_all_next(limit=n): the first n element nodes of the
next_elements chain (with no name filter, only Tags match). -/
def findAllNext (root : HNode) (p : HPath) (n : Nat) : List HPath :=
  ((pathsAfter root p).filter (fun q => (getAt root q).isTag)).take n

/-- tag.find_all_previous(limit=n). -/
def findAllPrev (root : HNode) (p : HPath) (n : Nat) : List HPath :=
  ((pathsBefore root p).filter (fun q => (getAt root q).isTag)).take n

/-- soup.find(name): the first element with the given tag name, in
document order. -/
def findFirstTag (root : HNode) (name : String) : Option HPath :=
  (allPaths root).find? (fun p => (getAt root p).tagName == name)

/-! ## urljoin

Model of urllib.parse.urljoin for the reference forms this program
resolves against its http(s) base: the empty reference, references
carrying their own scheme (returned unchanged), protocol-relative
(//host/...), path-absolute (/...) and path-relative references.
Query/fragment-only references and dot-segment normalisation are not
distinguished; the program's own base URL has no path, query or
fragment. -/

def isSchemeChar (c : Char) : Bool := isAlnumA c || c = '+' || c = '-' || c = '.'

def validSchemeL (cs : List Char) : Bool :=
  match cs with
  | [] => false
  | c :: rest => isAlphaA c && rest.all isSchemeChar

/-- Split off a leading "scheme:" when the text before the first colon
is a syntactically valid scheme (as urllib's scheme detection does). -/
def splitSchemeL (cs : List Char) : Option (List Char × List Char) :=
  let pre := cs.takeWhile (fun c => c != ':')
  if pre.length < cs.length && validSchemeL pre then
    some (pre, cs.drop (pre.length + 1))
  else none

/-- Split an absolute hierarchical base into (scheme, netloc, path). -/
def splitBaseL (cs : List Char) : Option (List Char × List Char × List Char) :=
  match splitSchemeL cs with
  | none => none
  | some (scheme, rest) =>
    if "//".data.isPrefixOf rest then
      let after := rest.drop 2
      let netloc := after.takeWhile (fun c => c != '/')
      some (scheme, netloc, after.drop netloc.length)
    else none

/-- RFC 3986 path merge as urljoin performs it: against a base with
authority and empty path the reference gets a leading slash; otherwise
it replaces everything after the base path's last slash. -/
def mergePathL (bpath url : List Char) : List Char :=
  if bpath.isEmpty then '/' :: url
  else (bpath.reverse.dropWhile (fun c => c != '/')).reverse ++ url

def urljoin (base url : String) : String :=
  if url.isEmpty then base
  else
    match splitSchemeL url.data with
    | some _ => url
    | none =>
      match splitBaseL base.data with
      | none => url
      | some (scheme, netloc, bpath) =>
        if "//".data.isPrefixOf url.data then
          String.mk (scheme ++ [':'] ++ url.data)
        else if url.data.head? = some '/' then
          String.mk (scheme ++ "://".data ++ netloc ++ url.data)
        else
          String.mk (scheme ++ "://".data ++ netloc ++ mergePathL bpath url.data)

/-! ## Python dict-comprehension deduplication (line 61) -/

/-- One Python dict assignment d[k] = v: an existing key keeps its
position and takes the new value; a new key is appended. -/
def dictInsert {κ α : Type} [BEq κ] (d : List (κ × α)) (k : κ) (v : α) : List (κ × α) :=
  if d.any (fun q => q.1 == k) then d.map (fun q => if q.1 == k then (q.1, v) else q)
  else d ++ [(k, v)]

/-- The dict built from a key/value sequence (insertion-ordered keys,
last value per key wins). -/
def pyDictOf {κ α : Type} [BEq κ] (ps : List (κ × α)) : List (κ × α) :=
  ps.foldl (fun d q => dictInsert d q.1 q.2) []

/-- list(dict-comprehension .values()). -/
def pyDictValues {κ α : Type} [BEq κ] (ps : List (κ × α)) : List α :=
  (pyDictOf ps).map Prod.snd

/-! ## The extractor pipeline (parse_recruitment_list, lines 43-123) -/

structure JobRec where
  title : String
  location : String
  post_date : String
  link : String
deriving Repr, DecidableEq

def BASE_URL : String := "https://www.ibps.in"

def containerKeywords : List String :=
  ["recruit", "career", "notice", "vacancy", "advertisement", "notification"]

/-- The container matcher of lines 50-51: a div/section/ul/tbody tag
whose class attribute is present with a truthy (non-empty) token list,
some token of which contains the keyword case-insensitively. -/
def isContainerTag (kw : String) (n : HNode) : Bool :=
  (n.tagName == "div" || n.tagName == "section" || n.tagName == "ul" || n.tagName == "tbody") &&
  (match n.getAttr "class" with
   | none => false
   | some cv =>
     let toks := pySplitL cv.data
     !toks.isEmpty && toks.any (fun c => containsSub (lowerL c) kw.data))

/-- Lines 47-52: possible_containers before the emptiness fallback,
extended keyword by keyword. -/
def selectContainersPre (root : HNode) : List HPath :=
  containerKeywords.flatMap (fun kw => findAllIn root [] (isContainerTag kw))

/-- Lines 54-56: soup.find("main") or soup.find("body") or soup (the
found region is non-empty in the documents considered, hence truthy). -/
def fallbackScope (root : HNode) : HPath :=
  match findFirstTag root "main" with
  | some p => p
  | none =>
    match findFirstTag root "body" with
    | some p => p
    | none => []

/-- possible_containers after lines 54-56. -/
def selectContainers (root : HNode) : List HPath :=
  let pre := selectContainersPre root
  if pre.isEmpty then [fallbackScope root] else pre

def isAnchorHrefTag (n : HNode) : Bool :=
  n.tagName == "a" && (n.getAttr "href").isSome

/-- Lines 58-60: anchors with an href, collected container by
container. -/
def collectAnchors (root : HNode) : List HPath :=
  (selectContainers root).flatMap (fun c => findAllIn root c isAnchorHrefTag)

def hrefOf (root : HNode) (p : HPath) : String :=
  ((getAt root p).getAttr "href").getD ""

/-- The dedup key of line 61: (a.get_text(strip=True), a[href]). -/
def anchorKey (root : HNode) (p : HPath) : String × String :=
  (getTextSep "" (getAt root p), hrefOf root p)

/-- Line 61: anchors = list({key(a): a for a in anchors}.values()). -/
def dedupAnchors (root : HNode) (ps : List HPath) : List HPath :=
  pyDictValues (ps.map (fun p => (anchorKey root p, p)))

/-- Line 72: [parent] + parent.find_all_next(limit=3) +
parent.find_all_previous(limit=3). Every node in it is a tag and
hence passes the truthiness guard of lines 74/82. -/
def searchNodesOf (root : HNode) (parentP : HPath) : List HPath :=
  parentP :: (findAllNext root parentP 3 ++ findAllPrev root parentP 3)

def firstSome {α β : Type} (f : α → Option β) : List α → Option β
  | [] => none
  | a :: rest =>
    match f a with
    | some b => some b
    | none => firstSome f rest

/-- The inclusion filter of lines 91-93, on the already-defaulted
title and the raw href: the anchor survives iff the first group
(keyword / ibps / document extension) or the second group
(wp-content / recruit / notification in the target) holds. -/
def acceptAnchor (title href : String) : Bool :=
  (kwSearch title || containsSub (lowerL title.data) "ibps".data
    || endsWithSub (lowerL href.data) ".pdf".data
    || endsWithSub (lowerL href.data) ".doc".data
    || endsWithSub (lowerL href.data) ".docx".data)
  || (containsSub href.data "wp-content".data
    || containsSub (lowerL href.data) "recruit".data
    || containsSub (lowerL href.data) "notification".data)

/-- Line 89: title = text or "IBPS Notice". -/
def titleOfText (text : String) : String :=
  if text.isEmpty then "IBPS Notice" else text

/-- The loop body of lines 65-100 for one dedupped anchor: its record,
or none when the filter discards it. -/
def processAnchor (root : HNode) (base_url : String) (ap : HPath) : Option JobRec :=
  let a := getAt root ap
  let text := getTextSep " " a
  let href := (a.getAttr "href").getD ""
  let link := urljoin base_url href
  let parentP := ap.dropLast
  let search_nodes := searchNodesOf root parentP
  let date_text := firstSome (fun p => dateSearch (getTextSep " " (getAt root p))) search_nodes
  let location_text := firstSome (fun p => locSearch (getTextSep " " (getAt root p))) search_nodes
  let title := titleOfText text
  if acceptAnchor title href then
    some { title := title, location := location_text.getD "",
           post_date := date_text.getD "", link := link }
  else none

/-- The results list as it stands after the loop of lines 65-100. -/
def primaryResults (root : HNode) (base_url : String) : List JobRec :=
  (dedupAnchors root (collectAnchors root)).filterMap (processAnchor root base_url)

/-- Lines 102-112: the whole-document .pdf fallback. -/
def pdfFallback (root : HNode) (base_url : String) : List JobRec :=
  (findAllIn root [] isAnchorHrefTag).filterMap (fun p =>
    let a := getAt root p
    let href := (a.getAttr "href").getD ""
    if endsWithSub (lowerL href.data) ".pdf".data then
      let t := getTextSep " " a
      some { title := if t.isEmpty then "IBPS PDF Notice" else t,
             location := "", post_date := "", link := urljoin base_url href }
    else none)

/-- Lines 114-121: keep the first record per link. -/
def dedupLinksAux (seen : List String) : List JobRec → List JobRec
  | [] => []
  | r :: rs =>
    if seen.contains r.link then dedupLinksAux seen rs
    else r :: dedupLinksAux (r.link :: seen) rs

def dedupLinks (rs : List JobRec) : List JobRec := dedupLinksAux [] rs

/-- parse_recruitment_list (lines 43-123). -/
def parse_recruitment_list (root : HNode) (base_url : String) : List JobRec :=
  let results := primaryResults root base_url
  let results2 := if results.isEmpty then pdfFallback root base_url else results
  dedupLinks results2

/-! ## Concrete documents -/

/-- Build an HNodes spine from a list. -/
def nlist : List HNode → HNodes
  | [] => .nil
  | c :: cs => .cons c (nlist cs)

/-- The BeautifulSoup root ("[document]") over top-level nodes. -/
def mkDoc (cs : List HNode) : HNode := .elem "[document]" [] (nlist cs)

/-- An element node with list-given children. -/
def el (tag : String) (attrs : List (String × String)) (cs : List HNode) : HNode :=
  .elem tag attrs (nlist cs)

/-- The spec's example input (section 8):
<div class="recruitment-list"><a href="/job1">Recruitment Notice</a>
Location: Mumbai 12-Jan-2024</div>. -/
def exampleDoc : HNode :=
  mkDoc [el "div" [("class", "recruitment-list")]
    [el "a" [("href", "/job1")] [.text "Recruitment Notice"],
     .text " Location: Mumbai 12-Jan-2024"]]

/-- Two anchors with the same dedup key (visible text "X", target
/a.pdf) but different surroundings: different dates next to them. -/
def dupAnchorDoc : HNode :=
  mkDoc [el "div" [("class", "recruit")]
    [el "p" [] [el "a" [("href", "/a.pdf")] [.text "X"], .text " 12-Jan-2024"],
     el "p" [] [el "a" [("href", "/a.pdf")] [.text "X"], .text " 13-Feb-2024"]]]

/-- A container whose class tokens match two keywords. -/
def twoKeywordDoc : HNode :=
  mkDoc [el "div" [("class", "recruitment-notice")]
    [el "a" [("href", "/r")] [.text "Apply"]]]

/-- Containers out of keyword order: a career div before a recruit
div. -/
def orderDoc : HNode :=
  mkDoc [el "div" [("class", "career")] [.text "a"],
         el "div" [("class", "recruit")] [.text "b"]]

/-- A keyword container whose only anchor is discarded, while a .pdf
anchor sits outside every container: the primary pass is empty and the
fallback fires. -/
def fallbackDoc : HNode :=
  mkDoc [el "div" [("class", "career")]
          [el "a" [("href", "/x")] [.text "Link"]],
         el "a" [("href", "/n.pdf")] [.text "Download"]]

/-- An anchor with no visible text and a target matching none of the
spec's section 4.4 conditions. -/
def emptyTextDoc : HNode :=
  mkDoc [el "div" [("class", "recruit")]
    [el "a" [("href", "/x")] []]]

/-- An anchor whose target contains a space. -/
def spaceHrefDoc : HNode :=
  mkDoc [el "div" [("class", "recruit")]
    [el "a" [("href", "/my file.pdf")] [.text "x"]]]

/-! ## Spec-side definitions (for refinement claims) -/

/-- Modelled from the spec's words (section 4.4, claim C1): the six
inclusion conditions, evaluated on the anchor's visible text and raw
target exactly as the claim states them. -/
def specSixConditions (visibleText rawTarget : String) : Bool :=
  kwSearch visibleText
  || containsSub (lowerL visibleText.data) "ibps".data
  || (endsWithSub (lowerL rawTarget.data) ".pdf".data
      || endsWithSub (lowerL rawTarget.data) ".doc".data
      || endsWithSub (lowerL rawTarget.data) ".docx".data)
  || containsSub rawTarget.data "wp-content".data
  || containsSub (lowerL rawTarget.data) "recruit".data
  || containsSub (lowerL rawTarget.data) "notification".data

/-- Characters RFC 3986 permits anywhere in a URI: unreserved,
gen-delims, sub-delims and the percent sign (Char.ofNat 39 is the
apostrophe). -/
def isUriChar (c : Char) : Bool :=
  isAlnumA c || "-._~:/?#[]@!$&()*+,;=%".data.contains c || c = Char.ofNat 39

/-- Modelled from the spec's words (section 3, claim C10): a
syntactically valid absolute URL — a well-formed scheme followed by a
colon, with every character drawn from the URI-permitted set. -/
def isValidAbsoluteUrl (s : String) : Bool :=
  (splitSchemeL s.data).isSome && s.data.all isUriChar

/-- Keys in order of first occurrence (the insertion order of a Python
dict's keys). -/
def firstOccKeys {κ : Type} [BEq κ] (l : List κ) : List κ :=
  l.foldl (fun acc k => if acc.contains k then acc else acc ++ [k]) []

/-- A document with no keyword container, no main and no body. -/
def plainDoc : HNode := mkDoc [.text "x"]

/-! ## Helper lemmas: the final link dedup (lines 114-121) -/

theorem dedupLinksAux_sublist : ∀ (rs : List JobRec) (seen : List String),
    (dedupLinksAux seen rs).Sublist rs
  | [], _ => by simp [dedupLinksAux]
  | r :: rs, seen => by
    simp only [dedupLinksAux]
    split
    · exact (dedupLinksAux_sublist rs seen).cons r
    · exact (dedupLinksAux_sublist rs (r.link :: seen)).cons₂ r

theorem mem_dedupLinksAux_not_seen : ∀ (rs : List JobRec) (seen : List String) (r : JobRec),
    r ∈ dedupLinksAux seen rs → r.link ∉ seen
  | [], seen, r, h => by simp [dedupLinksAux] at h
  | x :: rs, seen, r, h => by
    simp only [dedupLinksAux] at h
    split at h
    · exact mem_dedupLinksAux_not_seen rs seen r h
    · rcases List.mem_cons.mp h with rfl | hm
      · next hc => exact fun hmem => hc (List.elem_iff.mpr hmem)
      · have := mem_dedupLinksAux_not_seen rs (x.link :: seen) r hm
        exact fun hmem => this (List.mem_cons_of_mem _ hmem)

theorem dedupLinksAux_pairwise : ∀ (rs : List JobRec) (seen : List String),
    (dedupLinksAux seen rs).Pairwise (fun a b => a.link ≠ b.link)
  | [], _ => by simp [dedupLinksAux]
  | x :: rs, seen => by
    simp only [dedupLinksAux]
    split
    · exact dedupLinksAux_pairwise rs seen
    · refine List.Pairwise.cons (fun b hb => ?_) (dedupLinksAux_pairwise rs (x.link :: seen))
      have := mem_dedupLinksAux_not_seen rs (x.link :: seen) b hb
      exact fun he => this (he ▸ List.mem_cons_self _ _)

theorem dedupLinksAux_complete : ∀ (rs : List JobRec) (seen : List String) (r : JobRec),
    r ∈ rs → r.link ∉ seen → ∃ r' ∈ dedupLinksAux seen rs, r'.link = r.link
  | [], _, r, h, _ => by simp at h
  | x :: rs, seen, r, h, hs => by
    simp only [dedupLinksAux]
    split
    · next hc =>
      rcases List.mem_cons.mp h with rfl | hm
      · exact absurd (List.elem_iff.mp hc) hs
      · exact dedupLinksAux_complete rs seen r hm hs
    · by_cases he : r.link = x.link
      · exact ⟨x, List.mem_cons_self _ _, he.symm⟩
      · rcases List.mem_cons.mp h with rfl | hm
        · exact absurd rfl he
        · have ⟨r', hr', hl⟩ := dedupLinksAux_complete rs (x.link :: seen) r hm
            (by simp [hs, he])
          exact ⟨r', List.mem_cons_of_mem _ hr', hl⟩

theorem dedupLinksAux_first : ∀ (rs : List JobRec) (seen : List String) (r' : JobRec),
    r' ∈ dedupLinksAux seen rs → rs.find? (fun x => x.link == r'.link) = some r'
  | [], seen, r', h => by simp [dedupLinksAux] at h
  | x :: rs, seen, r', h => by
    simp only [dedupLinksAux] at h
    split at h
    · next hc =>
      have hns := mem_dedupLinksAux_not_seen rs seen r' h
      have hne : (x.link == r'.link) = false := by
        refine Bool.eq_false_iff.mpr (fun hb => ?_)
        exact hns (beq_iff_eq.mp hb ▸ List.elem_iff.mp hc)
      rw [List.find?_cons]
      simp only [hne]
      exact dedupLinksAux_first rs seen r' h
    · rcases List.mem_cons.mp h with rfl | hm
      · rw [List.find?_cons]
        simp
      · have hns := mem_dedupLinksAux_not_seen rs (x.link :: seen) r' hm
        have hne : (x.link == r'.link) = false := by
          refine Bool.eq_false_iff.mpr (fun hb => ?_)
          exact hns (by simp [beq_iff_eq.mp hb])
        rw [List.find?_cons]
        simp only [hne]
        exact dedupLinksAux_first rs (x.link :: seen) r' hm

theorem dedupLinksAux_fixed : ∀ (rs : List JobRec) (seen : List String),
    (∀ r ∈ rs, r.link ∉ seen) → rs.Pairwise (fun a b => a.link ≠ b.link) →
    dedupLinksAux seen rs = rs
  | [], _, _, _ => by simp [dedupLinksAux]
  | x :: rs, seen, hs, hp => by
    simp only [dedupLinksAux]
    have hx : ¬ seen.contains x.link = true := by
      intro hc
      exact hs x (List.mem_cons_self _ _) (List.elem_iff.mp hc)
    rw [if_neg hx]
    congr 1
    refine dedupLinksAux_fixed rs (x.link :: seen) (fun r hr hmem => ?_) hp.tail
    rcases List.mem_cons.mp hmem with he | hmem'
    · exact (List.pairwise_cons.mp hp).1 r hr he.symm
    · exact hs r (List.mem_cons_of_mem _ hr) hmem'

/-! ## Claims C6, C9, C7, C8 -/

/-- C6: the final deduplication pass retains, for every link value,
only the first record carrying that link (rs.find? on the link finds
exactly the retained record), preserving the relative order of
retained records (the output is a sublist of the input) and losing no
link value; consequently the extractor's returned result set has
pairwise distinct link values. -/
theorem C6_link_dedup_first_unique (rs : List JobRec) (root : HNode) (base : String) :
    (dedupLinks rs).Sublist rs ∧
    (∀ r' ∈ dedupLinks rs, rs.find? (fun x => x.link == r'.link) = some r') ∧
    (∀ r ∈ rs, ∃ r' ∈ dedupLinks rs, r'.link = r.link) ∧
    (dedupLinks rs).Pairwise (fun a b => a.link ≠ b.link) ∧
    (parse_recruitment_list root base).Pairwise (fun a b => a.link ≠ b.link) := by
  refine ⟨dedupLinksAux_sublist rs [], fun r' h => dedupLinksAux_first rs [] r' h,
    fun r h => dedupLinksAux_complete rs [] r h (by simp), dedupLinksAux_pairwise rs [], ?_⟩
  show (dedupLinks _).Pairwise _
  exact dedupLinksAux_pairwise _ []

/-- C9: the final first-occurrence-per-link pass is idempotent. -/
theorem C9_link_dedup_idempotent (rs : List JobRec) :
    dedupLinks (dedupLinks rs) = dedupLinks rs :=
  dedupLinksAux_fixed (dedupLinks rs) []
    (fun r _ h => (List.not_mem_nil r.link) h)
    (dedupLinksAux_pairwise rs [])

/-- C7: container selection always yields at least one scope node;
when no keyword-matched container exists, the single scope is the
main-content / body / document-root fallback. -/
theorem C7_container_nonempty (root : HNode) :
    1 ≤ (selectContainers root).length ∧
    (selectContainersPre root = [] → selectContainers root = [fallbackScope root]) := by
  constructor
  · simp only [selectContainers]
    split
    · simp
    · next h =>
      cases hp : selectContainersPre root with
      | nil => simp [hp] at h
      | cons a l => simp [hp]
  · intro h
    simp [selectContainers, h]

theorem C7_container_nonempty_witness :
    1 ≤ (selectContainers plainDoc).length ∧
    selectContainers plainDoc = [fallbackScope plainDoc] :=
  ⟨(C7_container_nonempty plainDoc).1, (C7_container_nonempty plainDoc).2 (by decide)⟩

/-- C8: an anchor whose trimmed visible text is empty gets the
placeholder title "IBPS Notice", which the keyword pattern itself
matches, so the inclusion filter accepts the anchor whatever its raw
target; such a record is emitted with title "IBPS Notice". -/
theorem C8_empty_text_always_accepted (href : String) :
    titleOfText "" = "IBPS Notice" ∧ kwSearch "IBPS Notice" = true ∧
    acceptAnchor (titleOfText "") href = true ∧
    parse_recruitment_list emptyTextDoc BASE_URL =
      [{ title := "IBPS Notice", location := "", post_date := "",
         link := "https://www.ibps.in/x" }] := by
  refine ⟨rfl, by decide, ?_, by decide⟩
  have h : kwSearch (titleOfText "") = true := by decide
  simp [acceptAnchor, h]

/-! ## Claims C1, C2 and the concrete counterexamples for C3, C4 -/

theorem acceptAnchor_eq_specSix (t h : String) :
    acceptAnchor t h = specSixConditions t h := by
  simp [acceptAnchor, specSixConditions, Bool.or_assoc]

/-- C1 counterexample: the anchor of emptyTextDoc has empty visible
text and raw target "/x"; none of the six section-4.4 conditions holds
of that visible text and target, yet the filter accepts it (the
placeholder title is what gets tested) and a record is emitted. -/
theorem C1_filter_soundness_counterexample :
    acceptAnchor (titleOfText "") "/x" = true ∧
    specSixConditions "" "/x" = false ∧
    parse_recruitment_list emptyTextDoc BASE_URL =
      [{ title := "IBPS Notice", location := "", post_date := "",
         link := "https://www.ibps.in/x" }] :=
  ⟨by decide, by decide, by decide⟩

/-- C1 (amended): filter soundness holds of the placeholder-defaulted
title rather than the bare visible text — an anchor produces a record
iff at least one of the six conditions holds of its defaulted title
(the placeholder "IBPS Notice" when the trimmed visible text is empty)
or its raw target, and a discarded anchor satisfies none of them. -/
theorem C1_filter_soundness_amended (root : HNode) (base : String) (ap : HPath) :
    (processAnchor root base ap).isSome =
      specSixConditions (titleOfText (getTextSep " " (getAt root ap))) (hrefOf root ap) := by
  rw [← acceptAnchor_eq_specSix]
  simp only [processAnchor, hrefOf]
  split <;> simp_all

/-- C2 counterexample: on the spec's example input the extractor does
not return the record stated by the claim (the location field differs:
the location regex's trailing [A-Za-z,\s\-]+ also captures the space
between "Mumbai" and the date). -/
theorem C2_example_scenario_counterexample :
    parse_recruitment_list exampleDoc BASE_URL ≠
      [{ title := "Recruitment Notice", location := "Location: Mumbai",
         post_date := "12-Jan-2024", link := "https://www.ibps.in/job1" }] := by decide

/-- C2 (amended): on the spec's example input the extractor returns
exactly one record with title "Recruitment Notice", location
"Location: Mumbai " (with a trailing space), post date "12-Jan-2024"
and link "https://www.ibps.in/job1". -/
theorem C2_example_scenario_amended :
    parse_recruitment_list exampleDoc BASE_URL =
      [{ title := "Recruitment Notice", location := "Location: Mumbai ",
         post_date := "12-Jan-2024", link := "https://www.ibps.in/job1" }] := by decide

/-- C3 counterexample: dupAnchorDoc has two anchors with identical
dedup key (visible text "X", raw target /a.pdf). The dict-comprehension
dedup of line 61 retains the second anchor, not the first: the emitted
record carries the second anchor's neighbouring date 13-Feb-2024,
while processing the first anchor would have produced 12-Jan-2024. -/
theorem C3_first_wins_counterexample :
    collectAnchors dupAnchorDoc = [[0, 0, 0], [0, 1, 0]] ∧
    anchorKey dupAnchorDoc [0, 0, 0] = anchorKey dupAnchorDoc [0, 1, 0] ∧
    dedupAnchors dupAnchorDoc (collectAnchors dupAnchorDoc) = [[0, 1, 0]] ∧
    (processAnchor dupAnchorDoc BASE_URL [0, 0, 0]).map JobRec.post_date =
      some "12-Jan-2024" ∧
    (parse_recruitment_list dupAnchorDoc BASE_URL).map JobRec.post_date =
      ["13-Feb-2024"] := by
  refine ⟨by decide, by decide, by decide, by decide, by decide⟩

/-- C4 counterexample: a div whose class "recruitment-notice" matches
both the recruit and the notice keyword appears twice in
possible_containers (so the sequence has duplicate nodes), and a
career-classed div preceding a recruit-classed div comes out after it
(so the sequence is not in document order). -/
theorem C4_container_union_counterexample :
    (selectContainersPre twoKeywordDoc = [[0], [0]] ∧
      ¬ (selectContainersPre twoKeywordDoc).Nodup) ∧
    selectContainersPre orderDoc = [[1], [0]] := by
  refine ⟨⟨by decide, by decide⟩, by decide⟩

/-! ## Claim C4 (amended) -/

theorem findAllIn_root_eq (root : HNode) (pred : HNode → Bool) :
    findAllIn root [] pred = (descPaths root).filter (fun q => pred (getAt root q)) := by
  simp [findAllIn, getAt, nodeAt]

theorem count_filter_false {α : Type} [BEq α] [LawfulBEq α] (p : α) (q : α → Bool) (l : List α)
    (h : q p = false) : (l.filter q).count p = 0 := by
  refine List.count_eq_zero.mpr (fun hm => ?_)
  have := List.of_mem_filter hm
  simp [h] at this

theorem selectPre_count (root : HNode) (p : HPath) : ∀ (kws : List String),
    ((kws.flatMap (fun kw => findAllIn root [] (isContainerTag kw))).count p) =
      (kws.filter (fun kw => isContainerTag kw (getAt root p))).length *
        ((descPaths root).count p)
  | [] => by simp
  | kw :: kws => by
    show ((findAllIn root [] (isContainerTag kw) ++
        kws.flatMap (fun k => findAllIn root [] (isContainerTag k))).count p) = _
    rw [List.count_append, selectPre_count root p kws, findAllIn_root_eq, List.filter_cons]
    by_cases h : isContainerTag kw (getAt root p)
    · have hc : (List.filter (fun q => isContainerTag kw (getAt root q))
          (descPaths root)).count p = (descPaths root).count p :=
        List.count_filter (by simpa using h)
      rw [hc]
      simp only [h, if_true, List.length_cons, Nat.succ_eq_add_one]
      ring
    · have hc : (List.filter (fun q => isContainerTag kw (getAt root q))
          (descPaths root)).count p = 0 :=
        count_filter_false p (fun q => isContainerTag kw (getAt root q))
          (descPaths root) (by simpa using h)
      rw [hc]
      simp [h]

/-- C4 (amended): possible_containers is the keyword-major
concatenation of the per-keyword match lists: a node appears once per
keyword its class tokens match (its multiplicity in the sequence is
the number of matching keywords times its multiplicity among the
document's node paths), matches of a later keyword follow all matches
of earlier keywords regardless of document position, and within one
keyword the matches form a document-order subsequence. -/
theorem C4_container_union_amended (root : HNode) (p : HPath) (kw : String) :
    (selectContainersPre root).count p =
      (containerKeywords.filter (fun k => isContainerTag k (getAt root p))).length *
        ((descPaths root).count p) ∧
    (findAllIn root [] (isContainerTag kw)).Sublist (descPaths root) := by
  refine ⟨selectPre_count root p containerKeywords, ?_⟩
  rw [findAllIn_root_eq]
  exact List.filter_sublist _

/-! ## Helper lemmas: the dict-comprehension dedup (line 61) -/

theorem anyKey_eq_containsKeys {κ α : Type} [BEq κ] [LawfulBEq κ]
    (d : List (κ × α)) (k : κ) :
    d.any (fun q => q.1 == k) = (d.map Prod.fst).contains k := by
  rw [Bool.eq_iff_iff]
  simp only [List.any_eq_true, beq_iff_eq]
  constructor
  · rintro ⟨q, hq, rfl⟩
    exact List.elem_iff.mpr (List.mem_map_of_mem Prod.fst hq)
  · intro h
    rcases List.mem_map.mp (List.elem_iff.mp h) with ⟨q, hq, rfl⟩
    exact ⟨q, hq, rfl⟩

theorem dictInsert_keys {κ α : Type} [BEq κ] [LawfulBEq κ]
    (d : List (κ × α)) (k : κ) (v : α) :
    (dictInsert d k v).map Prod.fst =
      if (d.map Prod.fst).contains k then d.map Prod.fst
      else d.map Prod.fst ++ [k] := by
  simp only [dictInsert, anyKey_eq_containsKeys]
  split
  · simp only [List.map_map]
    refine List.map_eq_map_iff.mpr (fun q _ => ?_)
    by_cases h : q.1 == k <;> simp [h]
  · simp

theorem pyDictFold_keys {κ α : Type} [BEq κ] [LawfulBEq κ] :
    ∀ (ps d : List (κ × α)),
      ((ps.foldl (fun d q => dictInsert d q.1 q.2) d).map Prod.fst) =
        ((ps.map Prod.fst).foldl
          (fun acc k => if acc.contains k then acc else acc ++ [k]) (d.map Prod.fst))
  | [], _ => rfl
  | q :: ps, d => by
    simp only [List.foldl_cons, List.map_cons]
    rw [pyDictFold_keys ps (dictInsert d q.1 q.2), dictInsert_keys]

theorem mem_dictInsert {κ α : Type} [BEq κ] [LawfulBEq κ]
    {d : List (κ × α)} {k : κ} {v : α} {q : κ × α}
    (h : q ∈ dictInsert d k v) : q = (k, v) ∨ (q ∈ d ∧ q.1 ≠ k) := by
  simp only [dictInsert] at h
  split at h
  · rcases List.mem_map.mp h with ⟨r, hr, he⟩
    by_cases hk : r.1 == k
    · left
      rw [← he, beq_iff_eq.mp hk]
      simp
    · right
      simp only [hk, if_false] at he
      subst he
      exact ⟨hr, by simpa using hk⟩
  · next hany =>
    rcases List.mem_append.mp h with hd | hq
    · right
      refine ⟨hd, fun he => ?_⟩
      exact hany (List.any_eq_true.mpr ⟨q, hd, beq_iff_eq.mpr he⟩)
    · left
      simpa using hq

theorem pyDictFold_lastwins {κ α : Type} [BEq κ] [LawfulBEq κ] :
    ∀ (ps d : List (κ × α)) (q : κ × α),
      q ∈ ps.foldl (fun d r => dictInsert d r.1 r.2) d →
        (ps.filter (fun r => r.1 == q.1)).getLast? = some q ∨
        ((ps.filter (fun r => r.1 == q.1)) = [] ∧ q ∈ d)
  | [], _, q, h => by
    right
    exact ⟨rfl, h⟩
  | p :: ps, d, q, h => by
    simp only [List.foldl_cons] at h
    rcases pyDictFold_lastwins ps (dictInsert d p.1 p.2) q h with hl | ⟨hf, hq⟩
    · left
      simp only [List.filter_cons]
      split
      · cases hfe : ps.filter (fun r => r.1 == q.1) with
        | nil => rw [hfe] at hl; simp at hl
        | cons a t => rw [hfe] at hl; exact hl
      · exact hl
    · rcases mem_dictInsert hq with rfl | ⟨hd, hne⟩
      · left
        simp only [List.filter_cons]
        rw [if_pos (by simp), hf]
        simp
      · right
        have hpq : (p.1 == q.1) = false := by
          refine Bool.eq_false_iff.mpr (fun hb => ?_)
          exact hne (beq_iff_eq.mp hb).symm
        rw [List.filter_cons, if_neg (by simp [hpq])]
        exact ⟨hf, hd⟩

theorem mem_pyDictOf_lastwins {κ α : Type} [BEq κ] [LawfulBEq κ]
    {ps : List (κ × α)} {q : κ × α} (h : q ∈ pyDictOf ps) :
    (ps.filter (fun r => r.1 == q.1)).getLast? = some q := by
  rcases pyDictFold_lastwins ps [] q h with hl | ⟨_, hq⟩
  · exact hl
  · simp at hq

theorem mem_pyDictOf_mem {κ α : Type} [BEq κ] [LawfulBEq κ]
    {ps : List (κ × α)} {q : κ × α} (h : q ∈ pyDictOf ps) : q ∈ ps := by
  have := mem_pyDictOf_lastwins h
  have hmem : q ∈ ps.filter (fun r => r.1 == q.1) := by
    cases hfe : ps.filter (fun r => r.1 == q.1) with
    | nil => rw [hfe] at this; simp at this
    | cons a t =>
      rw [hfe] at this
      exact List.mem_of_mem_getLast? this
  exact List.mem_of_mem_filter hmem

/-- C3 (amended): line 61 deduplicates by the pair (trimmed visible
text, raw target attribute); the retained entries sit in order of the
keys' first occurrences, but for each key it is the last-encountered
anchor that is retained — so its surrounding context is the one used
for field inference, not the first one's. -/
theorem C3_anchor_dedup_amended (root : HNode) (ps : List HPath) :
    (dedupAnchors root ps).map (anchorKey root) =
      firstOccKeys (ps.map (anchorKey root)) ∧
    ∀ p' ∈ dedupAnchors root ps,
      (ps.filter (fun q => anchorKey root q == anchorKey root p')).getLast? = some p' := by
  have hpairs : ∀ q ∈ pyDictOf (ps.map (fun p => (anchorKey root p, p))),
      q.1 = anchorKey root q.2 := by
    intro q hq
    rcases List.mem_map.mp (mem_pyDictOf_mem hq) with ⟨p, _, rfl⟩
    rfl
  constructor
  · have h2 := pyDictFold_keys (ps.map (fun p => (anchorKey root p, p))) []
    have h1 : ((pyDictOf (ps.map (fun p => (anchorKey root p, p)))).map Prod.snd).map
          (anchorKey root) =
        (pyDictOf (ps.map (fun p => (anchorKey root p, p)))).map Prod.fst := by
      rw [List.map_map]
      exact List.map_eq_map_iff.mpr (fun q hq => (hpairs q hq).symm)
    show ((pyDictOf (ps.map (fun p => (anchorKey root p, p)))).map Prod.snd).map
        (anchorKey root) = _
    rw [h1]
    simp only [List.map_map, List.map_nil] at h2
    rw [show (Prod.fst ∘ fun p => (anchorKey root p, p)) = anchorKey root from rfl] at h2
    exact h2
  · intro p' hp'
    rcases List.mem_map.mp hp' with ⟨q, hq, rfl⟩
    have hlw := mem_pyDictOf_lastwins hq
    have hqkey := hpairs q hq
    have hfm : (ps.map (fun p => (anchorKey root p, p))).filter (fun r => r.1 == q.1) =
        (ps.filter (fun p => anchorKey root p == q.1)).map
          (fun p => (anchorKey root p, p)) := by
      rw [List.filter_map]
      rfl
    rw [hfm, List.getLast?_map] at hlw
    rcases Option.map_eq_some'.mp hlw with ⟨p0, hp0, he⟩
    simp only [← hqkey]
    rw [hp0, ← he]

/-! ## Helper lemmas: paths and descendants -/

theorem nodeAt_append (rel : HPath) : ∀ (root : HNode) (c : HPath),
    nodeAt root (c ++ rel) = (nodeAt root c).bind (fun n => nodeAt n rel) := by
  intro root c
  induction c generalizing root with
  | nil => simp [nodeAt]
  | cons i c ih =>
    cases root with
    | text s => simp [nodeAt]
    | elem t a cs =>
      simp only [List.cons_append, nodeAt]
      cases childAt cs i with
      | none => simp
      | some child => simpa using ih child

theorem mem_descPathsL_intro : ∀ (cs : HNodes) (j k : Nat) (c : HNode) (q : HPath),
    childAt cs k = some c → (q = [] ∨ q ∈ descPaths c) →
    ((j + k) :: q) ∈ descPathsL j cs
  | .nil, _, k, _, _, hc, _ => by simp [childAt] at hc
  | .cons c0 cs, j, 0, c, q, hc, hq => by
    simp only [childAt] at hc
    cases hc
    simp only [descPathsL, Nat.add_zero]
    rcases hq with rfl | hq
    · exact List.mem_append_left _ (List.mem_cons_self _ _)
    · refine List.mem_append_left _ (List.mem_cons_of_mem _ ?_)
      exact List.mem_map_of_mem _ hq
  | .cons c0 cs, j, k + 1, c, q, hc, hq => by
    simp only [childAt] at hc
    have := mem_descPathsL_intro cs (j + 1) k c q hc hq
    simp only [descPathsL]
    refine List.mem_append_right _ ?_
    have harith : j + (k + 1) = (j + 1) + k := by omega
    rw [harith]
    exact this

theorem mem_descPathsL_elim : ∀ (cs : HNodes) (j : Nat) (p : HPath),
    p ∈ descPathsL j cs →
    ∃ k c q, p = (j + k) :: q ∧ childAt cs k = some c ∧ (q = [] ∨ q ∈ descPaths c)
  | .nil, _, p, hp => by simp [descPathsL] at hp
  | .cons c0 cs, j, p, hp => by
    simp only [descPathsL] at hp
    rcases List.mem_append.mp hp with h1 | h2
    · rcases List.mem_cons.mp h1 with rfl | h1'
      · exact ⟨0, c0, [], by simp, rfl, Or.inl rfl⟩
      · rcases List.mem_map.mp h1' with ⟨q, hq, rfl⟩
        exact ⟨0, c0, q, by simp, rfl, Or.inr hq⟩
    · rcases mem_descPathsL_elim cs (j + 1) p h2 with ⟨k, c, q, rfl, hc, hq⟩
      refine ⟨k + 1, c, q, ?_, hc, hq⟩
      have harith : j + 1 + k = j + (k + 1) := by omega
      rw [harith]

theorem mem_descPaths_of_nodeAt : ∀ (p : HPath) (root n : HNode),
    p ≠ [] → nodeAt root p = some n → p ∈ descPaths root
  | [], _, _, h, _ => absurd rfl h
  | i :: q, root, n, _, hn => by
    cases root with
    | text s => simp [nodeAt] at hn
    | elem t a cs =>
      simp only [nodeAt] at hn
      cases hc : childAt cs i with
      | none => rw [hc] at hn; simp at hn
      | some c =>
        rw [hc] at hn
        show (i :: q) ∈ descPathsL 0 cs
        have hm : ((0 + i) :: q) ∈ descPathsL 0 cs := by
          refine mem_descPathsL_intro cs 0 i c q hc ?_
          cases q with
          | nil => exact Or.inl rfl
          | cons j q' =>
            exact Or.inr (mem_descPaths_of_nodeAt (j :: q') c n (by simp) hn)
        simpa using hm

theorem nodeAt_isSome_of_mem_descPaths : ∀ (p : HPath) (root : HNode),
    p ∈ descPaths root → p ≠ [] ∧ (nodeAt root p).isSome
  | p, .text s, hp => by simp [descPaths] at hp
  | p, .elem t a cs, hp => by
    rcases mem_descPathsL_elim cs 0 p hp with ⟨k, c, q, rfl, hc, hq⟩
    refine ⟨by simp, ?_⟩
    simp only [nodeAt, Nat.zero_add]
    rw [hc]
    rcases hq with rfl | hq
    · simp [nodeAt]
    · exact (nodeAt_isSome_of_mem_descPaths q c hq).2
termination_by p _ _ => p.length

/-- A path is a descendant path of root iff it is non-empty and
resolves to a node. -/
theorem mem_descPaths_iff (root : HNode) (p : HPath) :
    p ∈ descPaths root ↔ (p ≠ [] ∧ (nodeAt root p).isSome) := by
  constructor
  · exact nodeAt_isSome_of_mem_descPaths p root
  · rintro ⟨hne, hsome⟩
    rcases Option.isSome_iff_exists.mp hsome with ⟨n, hn⟩
    exact mem_descPaths_of_nodeAt p root n hne hn

theorem nodeAt_container_isSome (root : HNode) (c : HPath)
    (h : c ∈ selectContainers root) : (nodeAt root c).isSome := by
  simp only [selectContainers] at h
  split at h
  · rcases List.mem_singleton.mp h with rfl
    simp only [fallbackScope]
    split
    · next p hp =>
      have hm := List.mem_of_find?_eq_some hp
      exact ((mem_descPaths_iff root p).mp hm).2
    · split
      · next p hp =>
        have hm := List.mem_of_find?_eq_some hp
        exact ((mem_descPaths_iff root p).mp hm).2
      · simp [nodeAt]
  · rcases List.mem_flatMap.mp h with ⟨kw, _, hc⟩
    rw [findAllIn_root_eq] at hc
    have := List.mem_filter.mp hc
    exact ((mem_descPaths_iff root c).mp this.1).2

theorem mem_findAllIn_whole (root : HNode) (c : HPath) (ap : HPath)
    (pred : HNode → Bool) (hc : c ∈ selectContainers root)
    (hap : ap ∈ findAllIn root c pred) : ap ∈ findAllIn root [] pred := by
  simp only [findAllIn] at hap
  rcases List.mem_filter.mp hap with ⟨hmap, hpred⟩
  rcases List.mem_map.mp hmap with ⟨rel, hrel, rfl⟩
  rw [findAllIn_root_eq]
  refine List.mem_filter.mpr ⟨?_, hpred⟩
  have hrel' := (mem_descPaths_iff (getAt root c) rel).mp hrel
  refine (mem_descPaths_iff root (c ++ rel)).mpr ⟨?_, ?_⟩
  · intro habs
    exact hrel'.1 (List.append_eq_nil.mp habs).2
  · rw [nodeAt_append]
    rcases Option.isSome_iff_exists.mp (nodeAt_container_isSome root c hc) with ⟨n, hn⟩
    rw [hn]
    have : getAt root c = n := by simp [getAt, hn]
    simpa [Option.bind, this] using hrel'.2

theorem mem_dedupAnchors_mem (root : HNode) (xs : List HPath) (ap : HPath)
    (h : ap ∈ dedupAnchors root xs) : ap ∈ xs := by
  rcases List.mem_map.mp h with ⟨q, hq, rfl⟩
  rcases List.mem_map.mp (mem_pyDictOf_mem hq) with ⟨p, hp, rfl⟩
  exact hp

theorem mem_collectAnchors_whole (root : HNode) (ap : HPath)
    (h : ap ∈ collectAnchors root) : ap ∈ findAllIn root [] isAnchorHrefTag := by
  rcases List.mem_flatMap.mp h with ⟨c, hc, hap⟩
  exact mem_findAllIn_whole root c ap isAnchorHrefTag hc hap

theorem mem_pdfFallback_shape (root : HNode) (base : String) (r : JobRec)
    (h : r ∈ pdfFallback root base) :
    ∃ p ∈ findAllIn root [] isAnchorHrefTag,
      endsWithSub (lowerL (hrefOf root p).data) ".pdf".data = true ∧
      r = { title := if (getTextSep " " (getAt root p)).isEmpty then "IBPS PDF Notice"
                     else getTextSep " " (getAt root p),
            location := "", post_date := "", link := urljoin base (hrefOf root p) } := by
  rcases List.mem_filterMap.mp h with ⟨p, hp, hf⟩
  simp only [hrefOf] at *
  refine ⟨p, hp, ?_⟩
  split at hf
  · next hpdf =>
    refine ⟨hpdf, ?_⟩
    exact (Option.some_inj.mp hf).symm
  · simp at hf

theorem processAnchor_link (root : HNode) (base : String) (ap : HPath) (r : JobRec)
    (h : processAnchor root base ap = some r) :
    r.link = urljoin base (hrefOf root ap) := by
  simp only [processAnchor, hrefOf] at *
  split at h
  · rw [← Option.some_inj.mp h]
  · simp at h

/-! ## Claims C5 and C10 -/

/-- C5: when the primary pass accepts nothing, the result is instead
built from every whole-document anchor whose raw target lowercased
ends with ".pdf": the result is the link-dedup of exactly those
fallback records; every returned record has empty location and post
date, title equal to the anchor's visible text or the PDF placeholder,
and the anchor's resolved target as link; and every such .pdf anchor's
resolved link occurs in the result. -/
theorem C5_pdf_fallback (root : HNode) (base : String)
    (h : primaryResults root base = []) :
    parse_recruitment_list root base = dedupLinks (pdfFallback root base) ∧
    (∀ r ∈ parse_recruitment_list root base,
      r.location = "" ∧ r.post_date = "" ∧
      ∃ p ∈ findAllIn root [] isAnchorHrefTag,
        endsWithSub (lowerL (hrefOf root p).data) ".pdf".data = true ∧
        r.title = (if (getTextSep " " (getAt root p)).isEmpty then "IBPS PDF Notice"
                   else getTextSep " " (getAt root p)) ∧
        r.link = urljoin base (hrefOf root p)) ∧
    (∀ p ∈ findAllIn root [] isAnchorHrefTag,
      endsWithSub (lowerL (hrefOf root p).data) ".pdf".data = true →
      ∃ r ∈ parse_recruitment_list root base, r.link = urljoin base (hrefOf root p)) := by
  have hA : parse_recruitment_list root base = dedupLinks (pdfFallback root base) := by
    simp [parse_recruitment_list, h]
  refine ⟨hA, ?_, ?_⟩
  · intro r hr
    rw [hA] at hr
    have hr' : r ∈ pdfFallback root base := (dedupLinksAux_sublist _ []).subset hr
    rcases mem_pdfFallback_shape root base r hr' with ⟨p, hp, hpdf, rfl⟩
    exact ⟨rfl, rfl, p, hp, hpdf, rfl, rfl⟩
  · intro p hp hpdf
    have hmem : ({ title := if (getTextSep " " (getAt root p)).isEmpty then "IBPS PDF Notice"
                     else getTextSep " " (getAt root p),
                   location := "", post_date := "",
                   link := urljoin base (hrefOf root p) } : JobRec) ∈
        pdfFallback root base := by
      refine List.mem_filterMap.mpr ⟨p, hp, ?_⟩
      simp only [hrefOf] at hpdf ⊢
      simp [hpdf]
    rcases dedupLinksAux_complete (pdfFallback root base) [] _ hmem (by simp)
      with ⟨r', hr', hl⟩
    rw [hA]
    exact ⟨r', hr', by simpa using hl⟩

theorem C5_pdf_fallback_witness :
    primaryResults fallbackDoc BASE_URL = [] ∧
    parse_recruitment_list fallbackDoc BASE_URL =
      dedupLinks (pdfFallback fallbackDoc BASE_URL) :=
  ⟨by decide, (C5_pdf_fallback fallbackDoc BASE_URL (by decide)).1⟩

/-- C10 counterexample: the anchor with raw target "/my file.pdf"
passes the filter (document extension) and yields the link
"https://www.ibps.in/my file.pdf", which contains a space and is not a
syntactically valid absolute URL. -/
theorem C10_valid_url_counterexample :
    (parse_recruitment_list spaceHrefDoc BASE_URL).map JobRec.link =
      ["https://www.ibps.in/my file.pdf"] ∧
    isValidAbsoluteUrl "https://www.ibps.in/my file.pdf" = false :=
  ⟨by decide, by decide⟩

/-- C10 (amended): every record of the result set carries, as link,
the urljoin-resolution of some document anchor's raw target against
the base URL; syntactic validity of the resolved link is not
guaranteed (characters such as spaces in the raw target are carried
through). -/
theorem C10_link_resolution_amended (root : HNode) (base : String) (r : JobRec)
    (h : r ∈ parse_recruitment_list root base) :
    ∃ p ∈ findAllIn root [] isAnchorHrefTag, r.link = urljoin base (hrefOf root p) := by
  have h2 : r ∈ (if (primaryResults root base).isEmpty then pdfFallback root base
      else primaryResults root base) := (dedupLinksAux_sublist _ []).subset h
  split at h2
  · rcases mem_pdfFallback_shape root base r h2 with ⟨p, hp, _, rfl⟩
    exact ⟨p, hp, rfl⟩
  · simp only [primaryResults] at h2
    rcases List.mem_filterMap.mp h2 with ⟨ap, hap, hfap⟩
    refine ⟨ap, ?_, processAnchor_link root base ap r hfap⟩
    exact mem_collectAnchors_whole root ap
      (mem_dedupAnchors_mem root (collectAnchors root) ap hap)

theorem C10_link_resolution_amended_witness :
    ∃ p ∈ findAllIn exampleDoc [] isAnchorHrefTag,
      ({ title := "Recruitment Notice", location := "Location: Mumbai ",
         post_date := "12-Jan-2024", link := "https://www.ibps.in/job1" } : JobRec).link =
        urljoin BASE_URL (hrefOf exampleDoc p) :=
  C10_link_resolution_amended exampleDoc BASE_URL _ (by decide)
